import Mathlib

/-!
Verification of the homomorphic-vote core of the App_Mobile_Master2 backend.

The definitions below are a shallow embedding of
`backend/app/crypto/paillier.py` (Paillier cryptosystem),
`backend/app/db.py` (`record_vote`, `verify_hash_chain`) and
`backend/app/main.py` (`aggregate_votes`).  Python arbitrary-precision
integers are modelled by `Nat` where the source values are provably
nonnegative and by `Int` (with `Int.fdiv` for `//` and `Int.emod` for `%`)
where Python's negative-operand semantics matter.  Randomness (prime draws,
encryption randomness) is made an explicit argument; a Python `raise` is
modelled by `Option`/`Except`.
-/

namespace Paillier

/-- `PublicKey` dataclass of `paillier.py`: modulus `n = p*q`, generator `g`. -/
structure PublicKey where
  n : ℕ
  g : ℕ
deriving DecidableEq, Repr

/-- `n_sq` property of `PublicKey`. -/
def PublicKey.n_sq (k : PublicKey) : ℕ := k.n * k.n

/-- `PrivateKey` dataclass of `paillier.py`: `lam`, `mu`, modulus `n`. -/
structure PrivateKey where
  lam : ℕ
  mu : ℕ
  n : ℕ
deriving DecidableEq, Repr

/-- `n_sq` property of `PrivateKey`. -/
def PrivateKey.n_sq (k : PrivateKey) : ℕ := k.n * k.n

/-- Python `pow(a, -1, n)`: the modular inverse of `a` modulo `n` in `[0, n)`,
`none` when no inverse exists (Python raises `ValueError`), including for
modulus `0`.  The inverse in `[0, n)` is unique, so returning the first value
of `[0, n)` satisfying `a * b % n = 1 % n` coincides with Python's result. -/
def modInv (a : ℤ) (n : ℕ) : Option ℕ :=
  (List.range n).find? (fun b => (a.emod n).toNat * b % n = 1 % n)

/-- `generate_keypair` of `paillier.py` after the two random prime draws
`p, q` are fixed: `n = p*q`, `lam = lcm(p-1, q-1)`, `g = n+1`,
`x = g^lam mod n_sq`, `l_val = (x-1) // n`, `mu = pow(l_val, -1, n)`.
`none` models the `ValueError`/`ZeroDivisionError` raises (no inverse, or a
zero modulus reached with degenerate draws — unreachable for prime draws). -/
def generate_keypair (p q : ℕ) : Option (PublicKey × PrivateKey) :=
  let n := p * q
  if n = 0 then none
  else
    let lam := Nat.lcm (p - 1) (q - 1)
    let g := n + 1
    let n_sq := n * n
    let x := g ^ lam % n_sq
    let l_val : ℤ := ((x : ℤ) - 1).fdiv n
    match modInv l_val n with
    | none => none
    | some mu => some (⟨n, g⟩, ⟨lam, mu, n⟩)

/-- `encrypt(pub, m, r)` of `paillier.py` with the randomness `r` made
explicit: `none` models `raise ValueError("message out of range")`. -/
def encrypt (pub : PublicKey) (m : ℕ) (r : ℕ) : Option ℕ :=
  if m < pub.n then
    some (pub.g ^ m % pub.n_sq * (r ^ pub.n % pub.n_sq) % pub.n_sq)
  else none

/-- The admissibility condition the `r is None` sampling loop of `encrypt`
enforces before accepting a drawn `r_candidate`. -/
def admissible (pub : PublicKey) (r : ℕ) : Prop :=
  1 ≤ r ∧ r < pub.n ∧ Nat.gcd r pub.n = 1

instance (pub : PublicKey) (r : ℕ) : Decidable (admissible pub r) := by
  unfold admissible; infer_instance

/-- `decrypt(priv, c)` of `paillier.py`.  `x - 1` can be negative in Python
(when `pow(c, lam, n_sq) = 0`), so the post-`pow` arithmetic is carried out
in `ℤ` with Python's floor division (`Int.fdiv`) and nonnegative remainder
(`Int.emod`). -/
def decrypt (priv : PrivateKey) (c : ℕ) : ℤ :=
  let x : ℕ := c ^ priv.lam % priv.n_sq
  ((((x : ℤ) - 1).fdiv priv.n) * priv.mu).emod priv.n

/-- `add(pub, c1, c2)` of `paillier.py`. -/
def add (pub : PublicKey) (c1 c2 : ℕ) : ℕ :=
  c1 * c2 % pub.n_sq

/-- `add_plain(pub, c, m)` of `paillier.py`. -/
def add_plain (pub : PublicKey) (c : ℕ) (m : ℕ) : ℕ :=
  c * (pub.g ^ m % pub.n_sq) % pub.n_sq

end Paillier

namespace Backend

open Paillier

/-- One row of the `audit.logs` table as selected by `verify_hash_chain`
(and inserted by `record_vote`): `id`, `event_type`, `payload_hash`,
nullable `prev_hash`. -/
structure AuditLogRow where
  id : ℕ
  event_type : String
  payload_hash : String
  prev_hash : Option String
deriving DecidableEq, Repr

/-- Result dict of `verify_hash_chain` in `db.py`:
`{"ok": ..., "length": ..., "broken_id": ...}`. -/
structure VerifyResult where
  ok : Bool
  length : ℕ
  broken_id : Option ℕ
deriving DecidableEq, Repr

/-- The `for row in rows` loop of `verify_hash_chain` from the second row on:
`prev` holds the running previous `payload_hash`; a row whose `prev_hash`
differs from it (including a NULL `prev_hash`, which Python's `!=` against a
string reports as different) ends the walk with `ok = False` and that row's
id. -/
def verifyLoop (total : ℕ) (prev : String) : List AuditLogRow → VerifyResult
  | [] => ⟨true, total, none⟩
  | row :: rest =>
    if row.prev_hash ≠ some prev then ⟨false, total, some row.id⟩
    else verifyLoop total row.payload_hash rest

/-- `verify_hash_chain` of `db.py`, applied to the rows the SQL query returns
in ascending id order.  The first row only seeds `prev_payload`; `length` is
always the total number of rows. -/
def verify_hash_chain (rows : List AuditLogRow) : VerifyResult :=
  match rows with
  | [] => ⟨true, 0, none⟩
  | row :: rest => verifyLoop rows.length row.payload_hash rest

/-- Boolean well-formedness of a chain fragment given the predecessor's
`payload_hash`: every row links to the `payload_hash` before it. -/
def chainFrom (prev : String) : List AuditLogRow → Bool
  | [] => true
  | row :: rest => (row.prev_hash == some prev) && chainFrom row.payload_hash rest

/-- Boolean well-formedness of a whole chain: every row after the first has
`prev_hash` equal to the previous row's `payload_hash`. -/
def chainOk : List AuditLogRow → Bool
  | [] => true
  | row :: rest => chainFrom row.payload_hash rest

/-- The `payload_hash` a row at position `j` of a chain fragment must link
to: the fragment's predecessor hash for `j = 0`, the `payload_hash` of the
row at position `j - 1` otherwise. -/
def prevPayloadAt : String → List AuditLogRow → ℕ → String
  | prev, _, 0 => prev
  | prev, [], _ + 1 => prev
  | _, row :: rest, j + 1 => prevPayloadAt row.payload_hash rest j

/-- Result dict of the `/votes/aggregate` handler (`aggregate_votes` in
`main.py`), restricted to the fields the aggregation pipeline computes. -/
structure AggregateResult where
  count : ℕ
  total : ℤ
  aggregate_ciphertext : Option ℕ
deriving DecidableEq, Repr

/-- `aggregate_votes` of `main.py` after the rows for the
`(question_id, key_id)` pair have been fetched, with the seed-encryption
randomness `r0` explicit: empty row set short-circuits before any
cryptosystem call; otherwise the accumulator is seeded with
`encrypt(pub, 0)`, every ciphertext is folded in via `add`, and `decrypt`
is applied once to the final accumulator.  `none` models an `encrypt`
raise (unreachable for a real keypair, where `0 < n`). -/
def aggregate_votes (pub : PublicKey) (priv : PrivateKey) (r0 : ℕ)
    (rows : List ℕ) : Option AggregateResult :=
  match rows with
  | [] => some ⟨0, 0, none⟩
  | _ :: _ =>
    match encrypt pub 0 r0 with
    | none => none
    | some e0 =>
      let agg := rows.foldl (fun a c => add pub a c) e0
      some ⟨rows.length, decrypt priv agg, some agg⟩

/-- One row of the `votes.questions` table, restricted to the columns
`record_vote`'s existence check reads. -/
structure Question where
  question_id : String
  is_active : Bool
deriving DecidableEq, Repr

/-- One row of the `votes.votes` table (timestamp omitted). -/
structure VoteRow where
  id : ℕ
  question_id : String
  participant_hash : String
  ciphertext : String
  key_id : String
deriving DecidableEq, Repr

/-- The persistent state `record_vote` reads and writes: the questions,
participants, votes and audit-log tables, each kept in insertion (id)
order. -/
structure DBState where
  questions : List Question
  identities : List (String × String)
  votes : List VoteRow
  audit : List AuditLogRow
deriving DecidableEq, Repr

/-- The metadata dict `record_vote` returns (timestamp omitted). -/
structure VoteMeta where
  vote_id : ℕ
  question_id : String
  participant_hash : String
  key_id : String
deriving DecidableEq, Repr

/-- The active-question existence check of `record_vote` (`SELECT id FROM
questions WHERE question_id = ... AND is_active`). -/
def hasActiveQuestion (st : DBState) (question_id : String) : Bool :=
  st.questions.any (fun q => q.question_id == question_id && q.is_active)

/-- `record_vote` of `db.py`, with `hash_identifier` (SHA-256 hex — an
external library call) abstracted as the function argument `hash`.
Everything happens inside one transaction: the active-question check (raise
`ValueError` and leave the state unchanged on failure), the
on-conflict-do-nothing participant insert, the vote insert, and the audit
append of a `vote_received` entry whose `payload_hash` is
`hash "{question_id}:{ciphertext}:{key_id}"` and whose `prev_hash` is the
`payload_hash` of the audit row with the highest id, if any.  Generated ids
model the serial columns. -/
def record_vote (hash : String → String) (st : DBState)
    (question_id participant_id agent_id ciphertext key_id : String) :
    DBState × Except String VoteMeta :=
  if hasActiveQuestion st question_id then
    let participant_hash := hash participant_id
    let agent_hash := hash agent_id
    let payload_hash := hash (question_id ++ ":" ++ ciphertext ++ ":" ++ key_id)
    let identities :=
      if st.identities.any (fun pr => pr.1 == participant_hash) then st.identities
      else st.identities ++ [(participant_hash, agent_hash)]
    let vote_id := st.votes.length + 1
    let votes := st.votes ++ [⟨vote_id, question_id, participant_hash, ciphertext, key_id⟩]
    let prev_hash := st.audit.getLast?.map (fun row => row.payload_hash)
    let audit := st.audit ++ [⟨st.audit.length + 1, "vote_received", payload_hash, prev_hash⟩]
    (⟨st.questions, identities, votes, audit⟩, Except.ok ⟨vote_id, question_id, participant_hash, key_id⟩)
  else
    (st, Except.error "Question invalide ou inactive")

end Backend

/-! ## Arithmetic facts about the Paillier scheme with `g = n + 1` -/

namespace Paillier

/-- Binomial congruence: `(n+1)^k ≡ 1 + k·n (mod n²)`. -/
lemma one_add_pow_modEq (n : ℕ) : ∀ k : ℕ, (n + 1) ^ k ≡ 1 + k * n [MOD n * n] := by
  intro k
  induction k with
  | zero => simpa using Nat.ModEq.refl 1
  | succ k ih =>
    calc (n + 1) ^ (k + 1) = (n + 1) ^ k * (n + 1) := by ring
      _ ≡ (1 + k * n) * (n + 1) [MOD n * n] := Nat.ModEq.mul_right _ ih
      _ = 1 + (k + 1) * n + k * (n * n) := by ring
      _ ≡ 1 + (k + 1) * n [MOD n * n] := Nat.add_mul_mod_self_right _ _ _

/-- Reduction of `1 + K·n` modulo `n²`. -/
lemma one_add_mul_mod (n K : ℕ) (hn : 2 ≤ n) :
    (1 + K * n) % (n * n) = 1 + K % n * n := by
  have hsplit : 1 + K * n = 1 + K % n * n + K / n * (n * n) := by
    conv_lhs => rw [← Nat.mod_add_div K n]
    ring
  have hmod : K % n < n := Nat.mod_lt _ (by omega)
  have hmul : (K % n + 1) * n ≤ n * n := Nat.mul_le_mul_right n (by omega)
  have hlt : 1 + K % n * n < n * n := by
    have hstep : K % n * n + n ≤ n * n := by
      calc K % n * n + n = (K % n + 1) * n := by ring
        _ ≤ n * n := hmul
    omega
  calc (1 + K * n) % (n * n) = (1 + K % n * n + K / n * (n * n)) % (n * n) := by
        rw [hsplit]
    _ = (1 + K % n * n) % (n * n) := Nat.add_mul_mod_self_right _ _ _
    _ = 1 + K % n * n := Nat.mod_eq_of_lt hlt

/-- Euler's theorem modulo `a²` for a prime `a`: if `a·(a-1)` divides the
exponent and `R` is coprime to `a`, then `R^L ≡ 1 (mod a²)`. -/
lemma pow_modEq_one_sq (a L R : ℕ) (ha : a.Prime) (hdvd : a * (a - 1) ∣ L)
    (hcop : Nat.Coprime R a) : R ^ L ≡ 1 [MOD a * a] := by
  have hcop2 : Nat.Coprime R (a ^ 2) := Nat.Coprime.pow_right 2 hcop
  have heuler : R ^ Nat.totient (a ^ 2) ≡ 1 [MOD a ^ 2] := Nat.ModEq.pow_totient hcop2
  have htot : Nat.totient (a ^ 2) = a * (a - 1) := by
    rw [Nat.totient_prime_pow ha (by norm_num)]; ring
  rw [htot] at heuler
  rcases hdvd with ⟨k, hk⟩
  have hfin : R ^ L ≡ 1 [MOD a ^ 2] := by
    rw [hk, pow_mul]
    calc (R ^ (a * (a - 1))) ^ k ≡ 1 ^ k [MOD a ^ 2] := Nat.ModEq.pow k heuler
      _ = 1 := one_pow k
  simpa [pow_two] using hfin

/-- Carmichael-style exponent fact used by decryption: for `n = p·q` a
product of two distinct primes, `lam = lcm(p-1, q-1)`, and `R` coprime to
`n`, `R^(n·lam) ≡ 1 (mod n²)`. -/
lemma pow_mul_lcm_modEq_one (p q R : ℕ) (hp : p.Prime) (hq : q.Prime)
    (hpq : p ≠ q) (hR : Nat.Coprime R (p * q)) :
    R ^ (p * q * Nat.lcm (p - 1) (q - 1)) ≡ 1 [MOD p * q * (p * q)] := by
  have hdp : p * (p - 1) ∣ p * q * Nat.lcm (p - 1) (q - 1) := by
    have h1 : (p - 1) ∣ q * Nat.lcm (p - 1) (q - 1) :=
      Dvd.dvd.mul_left (Nat.dvd_lcm_left _ _) q
    have h2 := mul_dvd_mul_left p h1
    simpa [mul_assoc] using h2
  have hdq : q * (q - 1) ∣ p * q * Nat.lcm (p - 1) (q - 1) := by
    have h1 : (q - 1) ∣ p * Nat.lcm (p - 1) (q - 1) :=
      Dvd.dvd.mul_left (Nat.dvd_lcm_right _ _) p
    have h2 := mul_dvd_mul_left q h1
    have h3 : q * (p * Nat.lcm (p - 1) (q - 1)) = p * q * Nat.lcm (p - 1) (q - 1) := by ring
    rwa [h3] at h2
  have hcp : Nat.Coprime R p := hR.coprime_dvd_right ⟨q, rfl⟩
  have hcq : Nat.Coprime R q := hR.coprime_dvd_right ⟨p, mul_comm p q⟩
  have h1 := pow_modEq_one_sq p _ R hp hdp hcp
  have h2 := pow_modEq_one_sq q _ R hq hdq hcq
  have hco : Nat.Coprime p q := (Nat.coprime_primes hp hq).mpr hpq
  have hcopsq : Nat.Coprime (p * p) (q * q) :=
    Nat.Coprime.mul (hco.mul_right hco) (hco.mul_right hco)
  have hcomb := (Nat.modEq_and_modEq_iff_modEq_mul hcopsq).mp ⟨h1, h2⟩
  have hmod : p * p * (q * q) = p * q * (p * q) := by ring
  rwa [hmod] at hcomb

/-- Soundness of `modInv`: a returned value is a modular inverse. -/
lemma modInv_spec (a : ℤ) (n b : ℕ) (h : modInv a n = some b) :
    (a.emod n).toNat * b % n = 1 % n := by
  have hfind := List.find?_some h
  simpa using hfind

/-- Completeness of `modInv`: a coprime residue has an inverse. -/
lemma modInv_isSome (a : ℤ) (n : ℕ) (hn : 0 < n)
    (h : Nat.Coprime (a.emod n).toNat n) : (modInv a n).isSome = true := by
  haveI : NeZero n := ⟨hn.ne'⟩
  set x : ℕ := (a.emod n).toNat with hx
  set b : ℕ := ((x : ZMod n)⁻¹).val with hb
  have hbmem : b ∈ List.range n := List.mem_range.mpr (ZMod.val_lt _)
  have hone : ((x : ZMod n) * (x : ZMod n)⁻¹) = 1 := ZMod.coe_mul_inv_eq_one x h
  have hcastb : ((b : ℕ) : ZMod n) = (x : ZMod n)⁻¹ := ZMod.natCast_rightInverse _
  have hmul : ((x * b : ℕ) : ZMod n) = ((1 : ℕ) : ZMod n) := by
    push_cast
    rw [hcastb]
    simpa using hone
  have hmodeq : x * b ≡ 1 [MOD n] := (ZMod.natCast_eq_natCast_iff _ _ _).mp hmul
  have hpred : x * b % n = 1 % n := hmodeq
  unfold modInv
  rw [← hx]
  cases hfind : (List.range n).find? (fun c => x * c % n = 1 % n) with
  | some c => rfl
  | none =>
    exact absurd (by simpa using hpred)
      (by simpa using List.find?_eq_none.mp hfind b hbmem)

/-- `generate_keypair` with a nonzero modulus, with the `let` bindings
unfolded. -/
lemma generate_keypair_eq (p q : ℕ) (h0 : p * q ≠ 0) :
    generate_keypair p q =
      match modInv (((((p * q + 1) ^ Nat.lcm (p - 1) (q - 1) % (p * q * (p * q)) : ℕ) : ℤ) - 1).fdiv ((p * q : ℕ) : ℤ))
          (p * q) with
      | none => none
      | some mu => some (⟨p * q, p * q + 1⟩, ⟨Nat.lcm (p - 1) (q - 1), mu, p * q⟩) := by
  unfold generate_keypair
  rw [if_neg h0]

/-- For two primes, `lam = lcm(p-1, q-1)` is strictly below `n = p·q`. -/
lemma lcm_lt_n (p q : ℕ) (hp : p.Prime) (hq : q.Prime) :
    Nat.lcm (p - 1) (q - 1) < p * q := by
  have hp2 := hp.two_le
  have hq2 := hq.two_le
  have hdvd : Nat.lcm (p - 1) (q - 1) ∣ (p - 1) * (q - 1) :=
    Nat.lcm_dvd (Dvd.intro _ rfl) (Dvd.intro_left _ rfl)
  have hpos : 0 < (p - 1) * (q - 1) := Nat.mul_pos (by omega) (by omega)
  have hle : Nat.lcm (p - 1) (q - 1) ≤ (p - 1) * (q - 1) := Nat.le_of_dvd hpos hdvd
  have hlt : (p - 1) * (q - 1) < p * q := by
    have h1 : (p - 1) * (q - 1) + 1 ≤ p * (q - 1) + 1 :=
      Nat.add_le_add_right (Nat.mul_le_mul_right _ (by omega)) 1
    have hq1 : q - 1 + 1 = q := by omega
    have h2 : p * (q - 1) + p = p * q := by
      calc p * (q - 1) + p = p * (q - 1 + 1) := by ring
        _ = p * q := by rw [hq1]
    omega
  omega

/-- The `l_val` computed inside `generate_keypair` for two prime draws is
exactly `lam`. -/
lemma keypair_lval (p q : ℕ) (hp : p.Prime) (hq : q.Prime) :
    ((((p * q + 1) ^ Nat.lcm (p - 1) (q - 1) % (p * q * (p * q)) : ℕ) : ℤ) - 1).fdiv ((p * q : ℕ) : ℤ)
      = (Nat.lcm (p - 1) (q - 1) : ℤ) := by
  set n := p * q with hn
  set lam := Nat.lcm (p - 1) (q - 1) with hlam
  have hn2 : 2 ≤ n := by
    have := Nat.mul_le_mul hp.two_le hq.two_le
    omega
  have hlt : lam < n := lcm_lt_n p q hp hq
  have hx : (n + 1) ^ lam % (n * n) = 1 + lam * n := by
    have h1 : (n + 1) ^ lam % (n * n) = (1 + lam * n) % (n * n) := one_add_pow_modEq n lam
    rw [h1, one_add_mul_mod n lam hn2, Nat.mod_eq_of_lt hlt]
  rw [hx]
  have hcast : ((1 + lam * n : ℕ) : ℤ) - 1 = (lam : ℤ) * (n : ℤ) := by push_cast; ring
  rw [hcast, Int.mul_fdiv_cancel _ (by exact_mod_cast (by omega : n ≠ 0))]

/-- Characterisation of a successfully generated keypair for two distinct
prime draws: the public key is `(n, n+1)`, the private exponent is
`lcm(p-1, q-1)`, and `mu` is its modular inverse modulo `n`. -/
lemma generate_keypair_spec (p q : ℕ) (hp : p.Prime) (hq : q.Prime)
    (pub : PublicKey) (priv : PrivateKey)
    (h : generate_keypair p q = some (pub, priv)) :
    pub = ⟨p * q, p * q + 1⟩ ∧ priv.lam = Nat.lcm (p - 1) (q - 1) ∧
      priv.n = p * q ∧ priv.lam * priv.mu ≡ 1 [MOD p * q] := by
  have h0 : p * q ≠ 0 := by
    have := Nat.mul_le_mul hp.two_le hq.two_le
    omega
  rw [generate_keypair_eq p q h0, keypair_lval p q hp hq] at h
  cases hm : modInv (Nat.lcm (p - 1) (q - 1) : ℤ) (p * q) with
  | none => rw [hm] at h; cases h
  | some mu =>
    rw [hm] at h
    have hpub : pub = ⟨p * q, p * q + 1⟩ := by
      have := congrArg (fun o => Option.map Prod.fst o) h
      simpa using this.symm
    have hpriv : priv = ⟨Nat.lcm (p - 1) (q - 1), mu, p * q⟩ := by
      have := congrArg (fun o => Option.map Prod.snd o) h
      simpa using this.symm
    have hmul := modInv_spec _ _ _ hm
    have hlt : Nat.lcm (p - 1) (q - 1) < p * q := lcm_lt_n p q hp hq
    have hemod : (((Nat.lcm (p - 1) (q - 1) : ℕ) : ℤ).emod ((p * q : ℕ) : ℤ)).toNat
        = Nat.lcm (p - 1) (q - 1) := by
      rw [show ((Nat.lcm (p - 1) (q - 1) : ℕ) : ℤ).emod ((p * q : ℕ) : ℤ)
          = ((Nat.lcm (p - 1) (q - 1) % (p * q) : ℕ) : ℤ) from (Int.natCast_mod _ _).symm]
      rw [Nat.mod_eq_of_lt hlt]
      exact Int.toNat_natCast _
    rw [hemod] at hmul
    refine ⟨hpub, ?_, ?_, ?_⟩
    · rw [hpriv]
    · rw [hpriv]
    · rw [hpriv]
      exact hmul

/-- Master decryption lemma: under a valid keypair for distinct primes
`p, q`, any `c` congruent mod `n²` to `(n+1)^M · R^n` with `R` coprime to
`n` decrypts to `M mod n`. -/
lemma decrypt_formula (p q : ℕ) (hp : p.Prime) (hq : q.Prime) (hpq : p ≠ q)
    (priv : PrivateKey) (hlam : priv.lam = Nat.lcm (p - 1) (q - 1))
    (hn : priv.n = p * q) (hmu : priv.lam * priv.mu ≡ 1 [MOD p * q])
    (M R c : ℕ) (hR : Nat.Coprime R (p * q))
    (hc : c ≡ (p * q + 1) ^ M * R ^ (p * q) [MOD p * q * (p * q)]) :
    decrypt priv c = ((M % (p * q) : ℕ) : ℤ) := by
  set n := p * q with hndef
  set lam := Nat.lcm (p - 1) (q - 1) with hlamdef
  have hn2 : 2 ≤ n := by
    have := Nat.mul_le_mul hp.two_le hq.two_le
    omega
  have h1 : c ^ lam ≡ 1 + M * lam * n [MOD n * n] := by
    calc c ^ lam ≡ ((n + 1) ^ M * R ^ n) ^ lam [MOD n * n] := Nat.ModEq.pow lam hc
      _ = (n + 1) ^ (M * lam) * R ^ (n * lam) := by
          rw [mul_pow, ← pow_mul, ← pow_mul]
      _ ≡ (1 + M * lam * n) * 1 [MOD n * n] :=
          Nat.ModEq.mul (one_add_pow_modEq n (M * lam))
            (pow_mul_lcm_modEq_one p q R hp hq hpq hR)
      _ = 1 + M * lam * n := by ring
  have hx : c ^ lam % (n * n) = 1 + M * lam % n * n := by
    have h2 : c ^ lam % (n * n) = (1 + M * lam * n) % (n * n) := h1
    rw [h2, one_add_mul_mod n (M * lam) hn2]
  have hmu2 : lam * priv.mu ≡ 1 [MOD n] := by rw [← hlam]; exact hmu
  simp only [decrypt, PrivateKey.n_sq, hlam, hn]
  rw [hx]
  have hcast : ((1 + M * lam % n * n : ℕ) : ℤ) - 1 = ((M * lam % n : ℕ) : ℤ) * (n : ℤ) := by
    push_cast; ring
  rw [hcast, Int.mul_fdiv_cancel _ (by exact_mod_cast (by omega : n ≠ 0))]
  have hcast2 : ((M * lam % n : ℕ) : ℤ) * (priv.mu : ℤ) = ((M * lam % n * priv.mu : ℕ) : ℤ) := by
    push_cast; ring
  rw [hcast2]
  rw [show ((M * lam % n * priv.mu : ℕ) : ℤ).emod ((n : ℕ) : ℤ)
      = ((M * lam % n * priv.mu % n : ℕ) : ℤ) from (Int.natCast_mod _ _).symm]
  norm_cast
  have hcong : M * lam % n * priv.mu ≡ M [MOD n] := by
    calc M * lam % n * priv.mu ≡ M * lam * priv.mu [MOD n] :=
          Nat.ModEq.mul_right _ (Nat.mod_modEq _ _)
      _ = M * (lam * priv.mu) := by ring
      _ ≡ M * 1 [MOD n] := Nat.ModEq.mul_left M hmu2
      _ = M := by ring
  exact hcong

/-- A ciphertext produced by `encrypt` is congruent to `g^m · r^n`
modulo `n²`. -/
lemma encrypt_modEq (pub : PublicKey) (m r c : ℕ) (hc : encrypt pub m r = some c) :
    c ≡ pub.g ^ m * r ^ pub.n [MOD pub.n * pub.n] := by
  unfold encrypt at hc
  by_cases hm : m < pub.n
  · rw [if_pos hm] at hc
    have hceq : c = pub.g ^ m % pub.n_sq * (r ^ pub.n % pub.n_sq) % pub.n_sq :=
      (Option.some.injEq _ _ ▸ hc).symm
    rw [hceq, PublicKey.n_sq]
    show _ % (pub.n * pub.n) = _ % (pub.n * pub.n)
    conv_rhs => rw [Nat.mul_mod]
    exact Nat.mod_mod_of_dvd _ dvd_rfl
  · rw [if_neg hm] at hc
    cases hc

/-- Claim C2: for every keypair returned by `generate_keypair` on distinct
primes `p ≠ q`, every plaintext `m < n` and every admissible randomness
`r` (`1 ≤ r < n`, `gcd(r, n) = 1`), the ciphertext `encrypt pub m r`
decrypts back to `m`. -/
theorem paillier_roundtrip (p q : ℕ) (hp : p.Prime) (hq : q.Prime) (hpq : p ≠ q)
    (pub : PublicKey) (priv : PrivateKey)
    (hkp : generate_keypair p q = some (pub, priv))
    (m r c : ℕ) (hm : m < pub.n) (hr : admissible pub r)
    (hc : encrypt pub m r = some c) :
    decrypt priv c = (m : ℤ) := by
  obtain ⟨hpub, hlam, hn, hmu⟩ := generate_keypair_spec p q hp hq pub priv hkp
  have hng : pub.n = p * q := by rw [hpub]
  have hgg : pub.g = p * q + 1 := by rw [hpub]
  have hRcop : Nat.Coprime r (p * q) := by
    have := hr.2.2
    rwa [hng] at this
  have hmod := encrypt_modEq pub m r c hc
  rw [hng, hgg] at hmod
  have hdec := decrypt_formula p q hp hq hpq priv hlam hn hmu m r c hRcop hmod
  rw [hdec]
  rw [← hng]
  rw [Nat.mod_eq_of_lt hm]

/-- Concrete instance of claim C2 with `p = 3`, `q = 5`, `m = 7`, `r = 2`. -/
theorem paillier_roundtrip_witness : decrypt ⟨4, 4, 15⟩ 83 = (7 : ℤ) :=
  paillier_roundtrip 3 5 (by norm_num) (by norm_num) (by decide)
    ⟨15, 16⟩ ⟨4, 4, 15⟩ (by decide) 7 2 83 (by decide) (by decide) (by decide)

/-- Claim C1: homomorphic addition — for a valid keypair on distinct primes,
plaintexts `m1, m2 < n` with `m1 + m2 < n` and admissible randomness,
`decrypt (add (encrypt m1) (encrypt m2)) = m1 + m2`. -/
theorem paillier_add_homomorphic (p q : ℕ) (hp : p.Prime) (hq : q.Prime)
    (hpq : p ≠ q) (pub : PublicKey) (priv : PrivateKey)
    (hkp : generate_keypair p q = some (pub, priv))
    (m1 m2 r1 r2 c1 c2 : ℕ) (hm1 : m1 < pub.n) (hm2 : m2 < pub.n)
    (hsum : m1 + m2 < pub.n)
    (hr1 : admissible pub r1) (hr2 : admissible pub r2)
    (hc1 : encrypt pub m1 r1 = some c1) (hc2 : encrypt pub m2 r2 = some c2) :
    decrypt priv (add pub c1 c2) = ((m1 + m2 : ℕ) : ℤ) := by
  obtain ⟨hpub, hlam, hn, hmu⟩ := generate_keypair_spec p q hp hq pub priv hkp
  have hng : pub.n = p * q := by rw [hpub]
  have hgg : pub.g = p * q + 1 := by rw [hpub]
  have hR1 : Nat.Coprime r1 (p * q) := by have := hr1.2.2; rwa [hng] at this
  have hR2 : Nat.Coprime r2 (p * q) := by have := hr2.2.2; rwa [hng] at this
  have hmod1 := encrypt_modEq pub m1 r1 c1 hc1
  have hmod2 := encrypt_modEq pub m2 r2 c2 hc2
  rw [hng, hgg] at hmod1 hmod2
  have hmod : add pub c1 c2
      ≡ (p * q + 1) ^ (m1 + m2) * (r1 * r2) ^ (p * q) [MOD p * q * (p * q)] := by
    have hstep : add pub c1 c2 ≡ c1 * c2 [MOD p * q * (p * q)] := by
      unfold add
      rw [PublicKey.n_sq, hng]
      exact Nat.mod_mod_of_dvd _ dvd_rfl
    calc add pub c1 c2 ≡ c1 * c2 [MOD p * q * (p * q)] := hstep
      _ ≡ ((p * q + 1) ^ m1 * r1 ^ (p * q)) * ((p * q + 1) ^ m2 * r2 ^ (p * q))
          [MOD p * q * (p * q)] := Nat.ModEq.mul hmod1 hmod2
      _ = (p * q + 1) ^ (m1 + m2) * (r1 * r2) ^ (p * q) := by
          rw [pow_add, mul_pow]; ring
  have hdec := decrypt_formula p q hp hq hpq priv hlam hn hmu
    (m1 + m2) (r1 * r2) (add pub c1 c2) (hR1.mul hR2) hmod
  rw [hdec, ← hng, Nat.mod_eq_of_lt hsum]

/-- Concrete instance of claim C1 with `p = 3`, `q = 5`, `m1 = 3`,
`m2 = 4`, `r1 = 2`, `r2 = 4`. -/
theorem paillier_add_homomorphic_witness :
    decrypt ⟨4, 4, 15⟩
        (add ⟨15, 16⟩ ((encrypt ⟨15, 16⟩ 3 2).getD 0) ((encrypt ⟨15, 16⟩ 4 4).getD 0))
      = ((3 + 4 : ℕ) : ℤ) :=
  paillier_add_homomorphic 3 5 (by norm_num) (by norm_num) (by decide)
    ⟨15, 16⟩ ⟨4, 4, 15⟩ (by decide) 3 4 2 4
    ((encrypt ⟨15, 16⟩ 3 2).getD 0) ((encrypt ⟨15, 16⟩ 4 4).getD 0)
    (by decide) (by decide) (by decide) (by decide) (by decide)
    (by decide) (by decide)

/-- Claim C9: plaintext addition — for a valid keypair on distinct primes,
`decrypt (add_plain (encrypt m1) m2) = m1 + m2` whenever `m1 + m2 < n`. -/
theorem paillier_add_plain_homomorphic (p q : ℕ) (hp : p.Prime) (hq : q.Prime)
    (hpq : p ≠ q) (pub : PublicKey) (priv : PrivateKey)
    (hkp : generate_keypair p q = some (pub, priv))
    (m1 m2 r c1 : ℕ) (hm1 : m1 < pub.n) (hm2 : m2 < pub.n)
    (hsum : m1 + m2 < pub.n) (hr : admissible pub r)
    (hc1 : encrypt pub m1 r = some c1) :
    decrypt priv (add_plain pub c1 m2) = ((m1 + m2 : ℕ) : ℤ) := by
  obtain ⟨hpub, hlam, hn, hmu⟩ := generate_keypair_spec p q hp hq pub priv hkp
  have hng : pub.n = p * q := by rw [hpub]
  have hgg : pub.g = p * q + 1 := by rw [hpub]
  have hR : Nat.Coprime r (p * q) := by have := hr.2.2; rwa [hng] at this
  have hmod1 := encrypt_modEq pub m1 r c1 hc1
  rw [hng, hgg] at hmod1
  have hmod : add_plain pub c1 m2
      ≡ (p * q + 1) ^ (m1 + m2) * r ^ (p * q) [MOD p * q * (p * q)] := by
    have hstep : add_plain pub c1 m2
        ≡ c1 * (p * q + 1) ^ m2 [MOD p * q * (p * q)] := by
      unfold add_plain
      rw [PublicKey.n_sq, hng, hgg]
      show _ % _ = _ % _
      conv_rhs => rw [Nat.mul_mod]
      rw [Nat.mod_mod_of_dvd _ dvd_rfl]
      conv_lhs => rw [Nat.mul_mod]
      rw [Nat.mod_mod_of_dvd _ dvd_rfl]
    calc add_plain pub c1 m2 ≡ c1 * (p * q + 1) ^ m2 [MOD p * q * (p * q)] := hstep
      _ ≡ ((p * q + 1) ^ m1 * r ^ (p * q)) * (p * q + 1) ^ m2
          [MOD p * q * (p * q)] := Nat.ModEq.mul_right _ hmod1
      _ = (p * q + 1) ^ (m1 + m2) * r ^ (p * q) := by rw [pow_add]; ring
  have hdec := decrypt_formula p q hp hq hpq priv hlam hn hmu
    (m1 + m2) r (add_plain pub c1 m2) hR hmod
  rw [hdec, ← hng, Nat.mod_eq_of_lt hsum]

/-- Concrete instance of claim C9 with `p = 3`, `q = 5`, `m1 = 3`,
`m2 = 4`, `r = 2`. -/
theorem paillier_add_plain_homomorphic_witness :
    decrypt ⟨4, 4, 15⟩ (add_plain ⟨15, 16⟩ ((encrypt ⟨15, 16⟩ 3 2).getD 0) 4)
      = ((3 + 4 : ℕ) : ℤ) :=
  paillier_add_plain_homomorphic 3 5 (by norm_num) (by norm_num) (by decide)
    ⟨15, 16⟩ ⟨4, 4, 15⟩ (by decide) 3 4 2 ((encrypt ⟨15, 16⟩ 3 2).getD 0)
    (by decide) (by decide) (by decide) (by decide) (by decide)

/-- Claim C7: `encrypt` fails exactly when the plaintext is out of range
(for the naturals that model Python's validated nonnegative plaintexts,
`m ∉ [0, n)` means `n ≤ m`), and otherwise returns
`(g^m mod n²) · (r^n mod n²) mod n²`. -/
theorem encrypt_range_spec (pub : PublicKey) (m r : ℕ) :
    (encrypt pub m r = none ↔ pub.n ≤ m) ∧
    (m < pub.n →
      encrypt pub m r
        = some (pub.g ^ m % pub.n_sq * (r ^ pub.n % pub.n_sq) % pub.n_sq)) := by
  constructor
  · unfold encrypt
    by_cases hm : m < pub.n
    · rw [if_pos hm]
      constructor
      · intro h; cases h
      · intro h; omega
    · rw [if_neg hm]
      constructor
      · intro h2; omega
      · intro h2; rfl
  · intro hm
    unfold encrypt
    rw [if_pos hm]

/-- Concrete instance of claim C7: in-range and out-of-range plaintexts
under the key `n = 15`. -/
theorem encrypt_range_spec_witness :
    encrypt ⟨15, 16⟩ 7 2 = some (16 ^ 7 % 225 * (2 ^ 15 % 225) % 225) :=
  (encrypt_range_spec ⟨15, 16⟩ 7 2).2 (by decide)

/-- Claim C8: `decrypt` is total and always lands in `[0, n)`, for any
nonnegative input `c` whatsoever (well-formed ciphertext or not), as long
as the key has a positive modulus (every generated key does). -/
theorem decrypt_total_in_range (priv : PrivateKey) (c : ℕ) (h : 0 < priv.n) :
    0 ≤ decrypt priv c ∧ decrypt priv c < (priv.n : ℤ) := by
  have hnz : (priv.n : ℤ) ≠ 0 := by exact_mod_cast h.ne'
  have hpos : (0 : ℤ) < (priv.n : ℤ) := by exact_mod_cast h
  unfold decrypt
  exact ⟨Int.emod_nonneg _ hnz, Int.emod_lt_of_pos _ hpos⟩

/-- Concrete instance of claim C8: the malformed ciphertext `0` (for which
Python's `x - 1` is negative) still decrypts to a value in `[0, 15)`. -/
theorem decrypt_total_in_range_witness :
    0 ≤ decrypt ⟨4, 4, 15⟩ 0 ∧ decrypt ⟨4, 4, 15⟩ 0 < (15 : ℤ) := by
  have h := decrypt_total_in_range ⟨4, 4, 15⟩ 0 (by decide)
  exact ⟨h.1, by exact_mod_cast h.2⟩

/-- Claim C6 counterexample: `generate_keypair` does not reject equal
primes — with `p = q = 3` it returns a keypair (`n = 9`, `g = 10`,
`lam = 2`, `mu = 5`) instead of failing. -/
theorem generate_keypair_equal_primes_cex :
    generate_keypair 3 3 = some (⟨9, 10⟩, ⟨2, 5, 9⟩) := by decide

/-- Claim C6 (amended): `generate_keypair` performs no equal-prime check;
for any prime `p`, drawing `p == q` still succeeds and returns a keypair,
because `l_val = p - 1` is always invertible modulo `n = p²`. -/
theorem generate_keypair_equal_primes (p : ℕ) (hp : p.Prime) :
    (generate_keypair p p).isSome = true := by
  have hp2 := hp.two_le
  have h0 : p * p ≠ 0 := by positivity
  rw [generate_keypair_eq p p h0, keypair_lval p p hp hp]
  rw [Nat.lcm_self]
  have hlt : p - 1 < p * p := by
    have hle : p ≤ p * p := Nat.le_mul_of_pos_left p (by omega)
    omega
  have hemod : (((p - 1 : ℕ) : ℤ).emod ((p * p : ℕ) : ℤ)).toNat = p - 1 := by
    rw [show ((p - 1 : ℕ) : ℤ).emod ((p * p : ℕ) : ℤ)
        = (((p - 1) % (p * p) : ℕ) : ℤ) from (Int.natCast_mod _ _).symm]
    rw [Nat.mod_eq_of_lt hlt]
    exact Int.toNat_natCast _
  have hcop : Nat.Coprime (p - 1) (p * p) := by
    have h2 : Nat.Coprime (p - 1) p := by
      have hd1 : Nat.gcd (p - 1) p ∣ p - 1 := Nat.gcd_dvd_left _ _
      have hd2 : Nat.gcd (p - 1) p ∣ p := Nat.gcd_dvd_right _ _
      have hd3 : Nat.gcd (p - 1) p ∣ 1 := by
        have hsub := Nat.dvd_sub' hd2 hd1
        rwa [show p - (p - 1) = 1 by omega] at hsub
      exact Nat.dvd_one.mp hd3
    exact h2.mul_right h2
  have hsome : (modInv ((p - 1 : ℕ) : ℤ) (p * p)).isSome = true := by
    apply modInv_isSome _ _ (by positivity)
    rwa [hemod]
  cases hfind : modInv ((p - 1 : ℕ) : ℤ) (p * p) with
  | none => rw [hfind] at hsome; simp at hsome
  | some mu => rfl

/-- Concrete instance of the amended claim C6 at `p = 3`. -/
theorem generate_keypair_equal_primes_witness :
    (generate_keypair 3 3).isSome = true :=
  generate_keypair_equal_primes 3 (by norm_num)

end Paillier

/-! ## Hash-chain verification lemmas -/

namespace Backend

open Paillier

/-- A fragment that chains correctly from `prev` passes the verification
loop. -/
lemma verifyLoop_ok (rows : List AuditLogRow) :
    ∀ (prev : String) (total : ℕ), chainFrom prev rows = true →
      verifyLoop total prev rows = ⟨true, total, none⟩ := by
  induction rows with
  | nil => intro prev total _; rfl
  | cons row rest ih =>
    intro prev total h
    simp only [chainFrom, Bool.and_eq_true, beq_iff_eq] at h
    obtain ⟨h1, h2⟩ := h
    simp only [verifyLoop]
    rw [if_neg (by simp [h1])]
    exact ih _ _ h2

/-- `prevPayloadAt` at a positive index is the `payload_hash` of the row
one position earlier. -/
lemma prevPayloadAt_get (rows : List AuditLogRow) :
    ∀ (prev : String) (j : ℕ) (h : j < rows.length),
      prevPayloadAt prev rows (j + 1) = (rows.get ⟨j, h⟩).payload_hash := by
  induction rows with
  | nil => intro prev j h; exact absurd h (by simp)
  | cons row rest ih =>
    intro prev j h
    cases j with
    | zero =>
      cases rest with
      | nil => rfl
      | cons s rest2 => rfl
    | succ k =>
      have hk : k < rest.length := by simpa using Nat.lt_of_succ_lt_succ h
      exact ih row.payload_hash k hk

/-- Overwriting the `prev_hash` of the row at position `j` of a correctly
chaining fragment with anything other than the hash it must link to makes
the loop stop exactly there. -/
lemma verifyLoop_set_prev (rows : List AuditLogRow) :
    ∀ (prev : String) (j : ℕ) (hj : j < rows.length) (w : Option String) (total : ℕ),
      chainFrom prev rows = true →
      w ≠ some (prevPayloadAt prev rows j) →
      verifyLoop total prev (rows.set j {rows.get ⟨j, hj⟩ with prev_hash := w})
        = ⟨false, total, some ((rows.get ⟨j, hj⟩).id)⟩ := by
  induction rows with
  | nil => intro prev j hj; exact absurd hj (by simp)
  | cons row rest ih =>
    intro prev j hj w total h hw
    simp only [chainFrom, Bool.and_eq_true, beq_iff_eq] at h
    obtain ⟨h1, h2⟩ := h
    cases j with
    | zero =>
      have hcond : ({row with prev_hash := w} : AuditLogRow).prev_hash ≠ some prev := by
        simpa [prevPayloadAt] using hw
      simp only [List.set_cons_zero, verifyLoop]
      rw [if_pos hcond]
    | succ k =>
      have hk : k < rest.length := by simpa using Nat.lt_of_succ_lt_succ hj
      simp only [List.set_cons_succ, verifyLoop]
      rw [if_neg (by simp [h1])]
      exact ih row.payload_hash k hk w total h2 hw

/-- Overwriting the `payload_hash` of the row at position `j` (with a
successor present) of a correctly chaining fragment with a different value
makes the loop stop at the successor. -/
lemma verifyLoop_set_payload (rows : List AuditLogRow) :
    ∀ (prev : String) (j : ℕ) (hj : j + 1 < rows.length) (v : String) (total : ℕ),
      chainFrom prev rows = true →
      v ≠ (rows.get ⟨j, by omega⟩).payload_hash →
      verifyLoop total prev (rows.set j {rows.get ⟨j, by omega⟩ with payload_hash := v})
        = ⟨false, total, some ((rows.get ⟨j + 1, hj⟩).id)⟩ := by
  induction rows with
  | nil => intro prev j hj; exact absurd hj (by simp)
  | cons row rest ih =>
    intro prev j hj v total h hv
    simp only [chainFrom, Bool.and_eq_true, beq_iff_eq] at h
    obtain ⟨h1, h2⟩ := h
    cases j with
    | zero =>
      cases rest with
      | nil => simp at hj
      | cons s rest2 =>
        simp only [chainFrom, Bool.and_eq_true, beq_iff_eq] at h2
        obtain ⟨hs, _⟩ := h2
        simp only [List.set_cons_zero, verifyLoop]
        rw [if_neg (by simp [h1])]
        rw [if_pos (by simp [hs]; exact fun hment => hv hment.symm)]
        rfl
    | succ k =>
      have hk : k + 1 < rest.length := by simpa using Nat.lt_of_succ_lt_succ hj
      simp only [List.set_cons_succ, verifyLoop]
      rw [if_neg (by simp [h1])]
      exact ih row.payload_hash k hk v total h2 hv

/-- The verification loop never reads the `payload_hash` of the last row. -/
lemma verifyLoop_snoc_payload (rows : List AuditLogRow) :
    ∀ (prev : String) (total : ℕ) (row : AuditLogRow) (v : String),
      verifyLoop total prev (rows ++ [{row with payload_hash := v}])
        = verifyLoop total prev (rows ++ [row]) := by
  induction rows with
  | nil =>
    intro prev total row v
    simp only [List.nil_append, verifyLoop]
  | cons a rows ih =>
    intro prev total row v
    simp only [List.cons_append, verifyLoop]
    by_cases hc : a.prev_hash ≠ some prev
    · rw [if_pos hc, if_pos hc]
    · rw [if_neg hc, if_neg hc]
      exact ih _ _ _ _

/-- The link target of the row at position `k` of the tail equals the
`payload_hash` of the row one position earlier in the whole chain. -/
lemma prevPayloadAt_cons (row : AuditLogRow) (rest : List AuditLogRow)
    (k : ℕ) (hk : k < rest.length) :
    prevPayloadAt row.payload_hash rest k
      = ((row :: rest).get ⟨k, by simp; omega⟩).payload_hash := by
  cases k with
  | zero =>
    cases rest with
    | nil => simp at hk
    | cons s t => rfl
  | succ k2 =>
    have hk2 : k2 < rest.length := by omega
    rw [prevPayloadAt_get rest row.payload_hash k2 hk2]
    rfl

/-- Claim C4 counterexample: on the well-formed two-entry chain
`[(1, "a", NULL), (2, "b", "a")]`, mutating the second (last) entry's
`payload_hash` to `"x"` still verifies as `ok = true` — the claim that
mutating any single entry's `payload_hash` breaks verification is false. -/
theorem verify_chain_mutation_cex :
    chainOk [⟨1, "vote_received", "a", none⟩, ⟨2, "vote_received", "b", some "a"⟩] = true ∧
    verify_hash_chain [⟨1, "vote_received", "a", none⟩, ⟨2, "vote_received", "x", some "a"⟩]
      = ⟨true, 2, none⟩ := by
  constructor
  · decide
  · decide

/-- Claim C4 (amended): with the audit rows in ascending id order, a chain
whose every entry after the first links to its predecessor verifies as
`ok = true` with `length = k`; mutating any single entry's `prev_hash`
other than the first entry's, or any single entry's `payload_hash` other
than the last entry's, to a value different from the linked one makes
verification return `ok = false` with the broken id equal to the first
entry whose `prev_hash` no longer matches the preceding `payload_hash`. -/
theorem verify_chain_mutation (rows : List AuditLogRow) (hok : chainOk rows = true) :
    verify_hash_chain rows = ⟨true, rows.length, none⟩ ∧
    (∀ (j : ℕ) (hj : j < rows.length), 1 ≤ j → ∀ (w : Option String),
      w ≠ some ((rows.get ⟨j - 1, by omega⟩).payload_hash) →
      verify_hash_chain (rows.set j {rows.get ⟨j, hj⟩ with prev_hash := w})
        = ⟨false, rows.length, some ((rows.get ⟨j, hj⟩).id)⟩) ∧
    (∀ (j : ℕ) (hj : j + 1 < rows.length) (v : String),
      v ≠ (rows.get ⟨j, by omega⟩).payload_hash →
      verify_hash_chain (rows.set j {rows.get ⟨j, by omega⟩ with payload_hash := v})
        = ⟨false, rows.length, some ((rows.get ⟨j + 1, hj⟩).id)⟩) := by
  refine ⟨?_, ?_, ?_⟩
  · cases rows with
    | nil => rfl
    | cons row rest =>
      show verifyLoop (row :: rest).length row.payload_hash rest = _
      exact verifyLoop_ok rest row.payload_hash _ hok
  · intro j hj h1 w hw
    cases rows with
    | nil => exact absurd hj (by simp)
    | cons row rest =>
      cases j with
      | zero => omega
      | succ k =>
        have hk : k < rest.length := by simpa using Nat.lt_of_succ_lt_succ hj
        have hw2 : w ≠ some (prevPayloadAt row.payload_hash rest k) := by
          rw [prevPayloadAt_cons row rest k hk]
          exact hw
        simp only [List.set_cons_succ]
        show verifyLoop _ row.payload_hash _ = _
        simp only [List.length_cons, List.length_set]
        exact verifyLoop_set_prev rest row.payload_hash k hk w
          (rest.length + 1) hok hw2
  · intro j hj v hv
    cases rows with
    | nil => exact absurd hj (by simp)
    | cons row rest =>
      cases j with
      | zero =>
        cases rest with
        | nil => simp at hj
        | cons s rest2 =>
          simp only [chainOk, chainFrom, Bool.and_eq_true, beq_iff_eq] at hok
          obtain ⟨hs, _⟩ := hok
          simp only [List.set_cons_zero]
          show verifyLoop _ ({row with payload_hash := v} : AuditLogRow).payload_hash
              (s :: rest2) = _
          simp only [verifyLoop]
          rw [if_pos (by simp [hs]; exact fun hment => hv hment.symm)]
          rfl
      | succ k =>
        have hk : k + 1 < rest.length := by simpa using Nat.lt_of_succ_lt_succ hj
        simp only [List.set_cons_succ]
        show verifyLoop _ row.payload_hash _ = _
        simp only [List.length_cons, List.length_set]
        exact verifyLoop_set_payload rest row.payload_hash k hk v
          (rest.length + 1) hok hv

/-- Concrete instance of the amended claim C4: the well-formed chain
`[(1, "a", NULL), (2, "b", "a"), (3, "c", "b")]` verifies, and mutating
entry 2's `prev_hash` breaks verification exactly at id 2. -/
theorem verify_chain_mutation_witness :
    verify_hash_chain
        [⟨1, "vote_received", "a", none⟩, ⟨2, "vote_received", "b", some "a"⟩,
         ⟨3, "vote_received", "c", some "b"⟩]
      = ⟨true, 3, none⟩ ∧
    verify_hash_chain
        [⟨1, "vote_received", "a", none⟩, ⟨2, "vote_received", "b", some "z"⟩,
         ⟨3, "vote_received", "c", some "b"⟩]
      = ⟨false, 3, some 2⟩ := by
  have h := verify_chain_mutation
    [⟨1, "vote_received", "a", none⟩, ⟨2, "vote_received", "b", some "a"⟩,
     ⟨3, "vote_received", "c", some "b"⟩] (by decide)
  refine ⟨h.1, ?_⟩
  have h2 := h.2.1 1 (by decide) (by decide) (some "z") (by decide)
  exact h2

/-- Claim C10: the verification result never depends on the first entry's
`prev_hash` or on the last entry's `payload_hash`, and a chain of at most
one entry always verifies as `ok = true`. -/
theorem verify_chain_boundary_independent :
    (∀ (row : AuditLogRow) (rest : List AuditLogRow) (w : Option String),
      verify_hash_chain ({row with prev_hash := w} :: rest)
        = verify_hash_chain (row :: rest)) ∧
    (∀ (rows : List AuditLogRow) (row : AuditLogRow) (v : String),
      verify_hash_chain (rows ++ [{row with payload_hash := v}])
        = verify_hash_chain (rows ++ [row])) ∧
    verify_hash_chain [] = ⟨true, 0, none⟩ ∧
    (∀ row : AuditLogRow, verify_hash_chain [row] = ⟨true, 1, none⟩) := by
  refine ⟨?_, ?_, rfl, fun row => rfl⟩
  · intro row rest w
    rfl
  · intro rows row v
    cases rows with
    | nil => rfl
    | cons a rest =>
      show verifyLoop _ a.payload_hash _ = verifyLoop _ a.payload_hash _
      simp only [List.length_cons, List.length_append, List.length_singleton]
      exact verifyLoop_snoc_payload rest a.payload_hash _ row v

/-! ## Aggregation pipeline -/

/-- Shape of `aggregate_votes` on a nonempty row list once the seed
encryption is known. -/
lemma aggregate_votes_cons (pub : PublicKey) (priv : PrivateKey) (r0 x : ℕ)
    (xs : List ℕ) (e0 : ℕ) (he : encrypt pub 0 r0 = some e0) :
    aggregate_votes pub priv r0 (x :: xs)
      = some ⟨(x :: xs).length,
              decrypt priv ((x :: xs).foldl (fun a c => add pub a c) e0),
              some ((x :: xs).foldl (fun a c => add pub a c) e0)⟩ := by
  unfold aggregate_votes
  rw [he]

/-- Folding encryptions of `ms` into an accumulator congruent to
`g^M · R^n` yields an accumulator congruent to `g^(M + sum ms) · Rt^n`
for some `Rt` coprime to `n`. -/
lemma foldl_add_encrypts (pub : PublicKey) :
    ∀ (ms rs : List ℕ) (acc M R : ℕ),
      ms.length = rs.length →
      (∀ m ∈ ms, m < pub.n) → (∀ r ∈ rs, admissible pub r) →
      Nat.Coprime R pub.n →
      acc ≡ pub.g ^ M * R ^ pub.n [MOD pub.n * pub.n] →
      ∃ Rt, Nat.Coprime Rt pub.n ∧
        (List.zipWith (fun m r => (encrypt pub m r).getD 0) ms rs).foldl
            (fun a c => add pub a c) acc
          ≡ pub.g ^ (M + ms.sum) * Rt ^ pub.n [MOD pub.n * pub.n] := by
  intro ms
  induction ms with
  | nil =>
    intro rs acc M R _ _ _ hRc hacc
    exact ⟨R, hRc, by simpa using hacc⟩
  | cons m ms2 ih =>
    intro rs acc M R hlen hms hrs hRc hacc
    cases rs with
    | nil => simp at hlen
    | cons r rs2 =>
      have hm : m < pub.n := hms m (by simp)
      have hr : admissible pub r := hrs r (by simp)
      have henc : encrypt pub m r
          = some (pub.g ^ m % pub.n_sq * (r ^ pub.n % pub.n_sq) % pub.n_sq) := by
        unfold encrypt; rw [if_pos hm]
      have hc : pub.g ^ m % pub.n_sq * (r ^ pub.n % pub.n_sq) % pub.n_sq
          ≡ pub.g ^ m * r ^ pub.n [MOD pub.n * pub.n] :=
        encrypt_modEq pub m r _ henc
      have hstep : add pub acc (pub.g ^ m % pub.n_sq * (r ^ pub.n % pub.n_sq) % pub.n_sq)
          ≡ pub.g ^ (M + m) * (R * r) ^ pub.n [MOD pub.n * pub.n] := by
        have h1 : add pub acc (pub.g ^ m % pub.n_sq * (r ^ pub.n % pub.n_sq) % pub.n_sq)
            ≡ acc * (pub.g ^ m % pub.n_sq * (r ^ pub.n % pub.n_sq) % pub.n_sq)
              [MOD pub.n * pub.n] := by
          unfold add
          rw [PublicKey.n_sq]
          exact Nat.mod_mod_of_dvd _ dvd_rfl
        calc add pub acc _ ≡ acc * _ [MOD pub.n * pub.n] := h1
          _ ≡ (pub.g ^ M * R ^ pub.n) * (pub.g ^ m * r ^ pub.n) [MOD pub.n * pub.n] :=
              Nat.ModEq.mul hacc hc
          _ = pub.g ^ (M + m) * (R * r) ^ pub.n := by rw [pow_add, mul_pow]; ring
      obtain ⟨Rt, hRt, hfold⟩ := ih rs2
        (add pub acc (pub.g ^ m % pub.n_sq * (r ^ pub.n % pub.n_sq) % pub.n_sq))
        (M + m) (R * r) (by simpa using hlen)
        (fun x hx => hms x (by simp [hx])) (fun x hx => hrs x (by simp [hx]))
        (hRc.mul hr.2.2) hstep
      refine ⟨Rt, hRt, ?_⟩
      simp only [List.zipWith_cons_cons, List.foldl_cons, henc, Option.getD_some,
        List.sum_cons]
      have hexp : M + (m + ms2.sum) = M + m + ms2.sum := by ring
      rw [hexp]
      exact hfold

/-- Claim C3: `aggregate_votes` on zero stored rows returns
`count = 0, total = 0` and no aggregate ciphertext without touching the
cryptosystem (for any key and any seed randomness); on stored rows that
encrypt plaintexts `ms` under a valid keypair it returns `count = |ms|`
and `total = (sum ms) mod n`, obtained by seeding with `encrypt pub 0`,
folding all ciphertexts with `add`, and decrypting the final accumulator
once. -/
theorem aggregate_votes_spec (p q : ℕ) (hp : p.Prime) (hq : q.Prime)
    (hpq : p ≠ q) (pub : PublicKey) (priv : PrivateKey)
    (hkp : generate_keypair p q = some (pub, priv))
    (r0 : ℕ) (hr0 : admissible pub r0)
    (ms rs : List ℕ) (hlen : ms.length = rs.length)
    (hms : ∀ m ∈ ms, m < pub.n) (hrs : ∀ r ∈ rs, admissible pub r) :
    (∀ (pub2 : PublicKey) (priv2 : PrivateKey) (r02 : ℕ),
      aggregate_votes pub2 priv2 r02 [] = some ⟨0, 0, none⟩) ∧
    (ms ≠ [] → ∃ agg, aggregate_votes pub priv r0
        (List.zipWith (fun m r => (encrypt pub m r).getD 0) ms rs)
      = some ⟨ms.length, ((ms.sum % pub.n : ℕ) : ℤ), some agg⟩) := by
  obtain ⟨hpub, hlam, hn, hmu⟩ := generate_keypair_spec p q hp hq pub priv hkp
  have hng : pub.n = p * q := by rw [hpub]
  have hgg : pub.g = p * q + 1 := by rw [hpub]
  refine ⟨fun pub2 priv2 r02 => rfl, ?_⟩
  intro hne
  cases ms with
  | nil => exact absurd rfl hne
  | cons m ms2 =>
    cases rs with
    | nil => simp at hlen
    | cons r rs2 =>
      have h0n : 0 < pub.n := by
        rw [hng]
        exact Nat.mul_pos hp.pos hq.pos
      have henc0 : encrypt pub 0 r0
          = some (pub.g ^ 0 % pub.n_sq * (r0 ^ pub.n % pub.n_sq) % pub.n_sq) := by
        unfold encrypt; rw [if_pos h0n]
      have hacc := encrypt_modEq pub 0 r0 _ henc0
      obtain ⟨Rt, hRt, hfold⟩ := foldl_add_encrypts pub (m :: ms2) (r :: rs2)
        (pub.g ^ 0 % pub.n_sq * (r0 ^ pub.n % pub.n_sq) % pub.n_sq)
        0 r0 hlen hms hrs hr0.2.2 hacc
      set rows := List.zipWith (fun m r => (encrypt pub m r).getD 0) (m :: ms2) (r :: rs2)
        with hrowsdef
      have hrows_cons : rows = (encrypt pub m r).getD 0
          :: List.zipWith (fun m r => (encrypt pub m r).getD 0) ms2 rs2 := by
        simp [hrowsdef]
      set agg := rows.foldl (fun a c => add pub a c)
        (pub.g ^ 0 % pub.n_sq * (r0 ^ pub.n % pub.n_sq) % pub.n_sq) with haggdef
      have hfold2 : agg ≡ (p * q + 1) ^ (0 + (m :: ms2).sum) * Rt ^ (p * q)
          [MOD p * q * (p * q)] := by
        rw [haggdef]
        have := hfold
        rwa [hng, hgg] at this
      have hRt2 : Nat.Coprime Rt (p * q) := by rwa [hng] at hRt
      have hdec := decrypt_formula p q hp hq hpq priv hlam hn hmu
        (0 + (m :: ms2).sum) Rt agg hRt2 hfold2
      refine ⟨agg, ?_⟩
      rw [hrows_cons] at haggdef ⊢
      rw [aggregate_votes_cons pub priv r0 _ _ _ henc0]
      rw [← haggdef]
      have hlen2 : ms2.length = rs2.length := by simpa using hlen
      have hcount : ((encrypt pub m r).getD 0
          :: List.zipWith (fun m r => (encrypt pub m r).getD 0) ms2 rs2).length
          = (m :: ms2).length := by
        simp [List.length_zipWith, hlen2]
      rw [hcount, hdec]
      rw [show (0 + (m :: ms2).sum) = (m :: ms2).sum by ring, ← hng]

/-- Concrete instance of claim C3: three votes encrypting `{1, 1, 0}`
under the demo-sized key `n = 15` aggregate to `count = 3, total = 2`,
and the empty row set yields `count = 0, total = 0` with no ciphertext. -/
theorem aggregate_votes_spec_witness :
    aggregate_votes ⟨15, 16⟩ ⟨4, 4, 15⟩ 8 [] = some ⟨0, 0, none⟩ ∧
    ∃ agg, aggregate_votes ⟨15, 16⟩ ⟨4, 4, 15⟩ 8
        (List.zipWith (fun m r => (encrypt ⟨15, 16⟩ m r).getD 0) [1, 1, 0] [2, 4, 7])
      = some ⟨3, ((2 : ℕ) : ℤ), some agg⟩ := by
  have h := aggregate_votes_spec 3 5 (by norm_num) (by norm_num) (by decide)
    ⟨15, 16⟩ ⟨4, 4, 15⟩ (by decide) 8 (by decide) [1, 1, 0] [2, 4, 7]
    (by decide) (by decide) (by decide)
  exact ⟨h.1 ⟨15, 16⟩ ⟨4, 4, 15⟩ 8, h.2 (by decide)⟩

/-! ## Vote recording -/

/-- Claim C5: within one unit of work, `record_vote` appends exactly one
vote row and exactly one `vote_received` audit entry whose `payload_hash`
is derived from `(question_id, ciphertext, key_id)` and whose `prev_hash`
links to the latest audit entry; and it returns the rejected-request error
`"Question invalide ou inactive"`, leaving every table unchanged, exactly
when no active question with the given id exists. -/
theorem record_vote_spec (hash : String → String) (st : DBState)
    (question_id participant_id agent_id ciphertext key_id : String) :
    (hasActiveQuestion st question_id = true →
      (record_vote hash st question_id participant_id agent_id ciphertext key_id).1.votes
          = st.votes ++ [⟨st.votes.length + 1, question_id, hash participant_id,
              ciphertext, key_id⟩] ∧
      (record_vote hash st question_id participant_id agent_id ciphertext key_id).1.audit
          = st.audit ++ [⟨st.audit.length + 1, "vote_received",
              hash (question_id ++ ":" ++ ciphertext ++ ":" ++ key_id),
              st.audit.getLast?.map (fun row => row.payload_hash)⟩] ∧
      (record_vote hash st question_id participant_id agent_id ciphertext key_id).2
          = Except.ok ⟨st.votes.length + 1, question_id, hash participant_id, key_id⟩) ∧
    (hasActiveQuestion st question_id = false →
      record_vote hash st question_id participant_id agent_id ciphertext key_id
        = (st, Except.error "Question invalide ou inactive")) := by
  constructor
  · intro h
    unfold record_vote
    rw [if_pos h]
    exact ⟨rfl, rfl, rfl⟩
  · intro h
    unfold record_vote
    rw [if_neg (by simp [h])]

/-- Concrete instance of claim C5: recording a vote against the single
active question `"q1"` appends one vote row and one chained
`vote_received` audit entry. -/
theorem record_vote_spec_witness :
    (record_vote (fun s => s) ⟨[⟨"q1", true⟩], [], [], []⟩ "q1" "p1" "a1" "17" "key-v1").1.votes
        = [⟨1, "q1", "p1", "17", "key-v1"⟩] ∧
    (record_vote (fun s => s) ⟨[⟨"q1", true⟩], [], [], []⟩ "q1" "p1" "a1" "17" "key-v1").1.audit
        = [⟨1, "vote_received", "q1:17:key-v1", none⟩] ∧
    (record_vote (fun s => s) ⟨[⟨"q1", true⟩], [], [], []⟩ "q1" "p1" "a1" "17" "key-v1").2
        = Except.ok ⟨1, "q1", "p1", "key-v1"⟩ := by
  have h := (record_vote_spec (fun s => s) ⟨[⟨"q1", true⟩], [], [], []⟩
    "q1" "p1" "a1" "17" "key-v1").1 (by decide)
  exact ⟨h.1, h.2.1, h.2.2⟩

end Backend
